import Mathlib

set_option maxHeartbeats 1000000

namespace MergeScribe

/-!
Shallow embedding of the MergeScribe core (src/mergescribe and
src/fast_text_input.py).  Python strings are modelled as Lean `String`
(lists of characters); character classification models the ASCII
fragment of Python's `str` semantics (`\w` is alphanumeric-or-underscore,
`\s` is the six ASCII whitespace characters, `str.lower` maps A–Z to a–z).
-/

/-- ASCII fragment of Python's regex class `\s`. -/
def isSpaceChar (c : Char) : Bool :=
  c == ' ' || c == '\t' || c == '\n' || c == '\x0b' || c == '\x0c' || c == '\r'

/-- ASCII fragment of Python's regex class `\w`: alphanumeric or underscore. -/
def isWordChar (c : Char) : Bool :=
  c.isAlphanum || c == '_'

/-- ASCII fragment of Python's `str.lower`: map A–Z to a–z, leave the rest. -/
def asciiLower : Char → Char
  | 'A' => 'a' | 'B' => 'b' | 'C' => 'c' | 'D' => 'd' | 'E' => 'e' | 'F' => 'f'
  | 'G' => 'g' | 'H' => 'h' | 'I' => 'i' | 'J' => 'j' | 'K' => 'k' | 'L' => 'l'
  | 'M' => 'm' | 'N' => 'n' | 'O' => 'o' | 'P' => 'p' | 'Q' => 'q' | 'R' => 'r'
  | 'S' => 's' | 'T' => 't' | 'U' => 'u' | 'V' => 'v' | 'W' => 'w' | 'X' => 'x'
  | 'Y' => 'y' | 'Z' => 'z'
  | c => c

theorem isWordChar_asciiLower (c : Char) : isWordChar (asciiLower c) = isWordChar c := by
  unfold asciiLower
  split <;> rfl

theorem isSpaceChar_asciiLower (c : Char) : isSpaceChar (asciiLower c) = isSpaceChar c := by
  unfold asciiLower
  split <;> rfl

/-- Python `str.split()` (no argument): the maximal whitespace-free runs of
the string, in order; empty runs never appear. -/
def splitWs : List Char → List (List Char)
  | [] => []
  | c :: rest =>
    if isSpaceChar c then splitWs rest
    else
      match rest with
      | [] => [[c]]
      | c2 :: _ =>
        if isSpaceChar c2 then [c] :: splitWs rest
        else
          match splitWs rest with
          | [] => [[c]]
          | w :: ws => (c :: w) :: ws

/-- Python `' '.join(words)`. -/
def joinSp : List (List Char) → List Char
  | [] => []
  | [w] => w
  | w :: ws => w ++ ' ' :: joinSp ws

/-- The characters kept by `re.sub(r'[^\w\s]', '', text)`. -/
def keepChar (c : Char) : Bool :=
  isWordChar c || isSpaceChar c

/-- Model of `normalize_for_matching` from src/mergescribe/consensus.py on character
lists: `re.sub(r'[^\w\s]', '', text)` then `' '.join(text.lower().split())`. -/
def normalizeCL (l : List Char) : List Char :=
  joinSp (splitWs ((l.filter keepChar).map asciiLower))

/-- Model of `normalize_for_matching` from src/mergescribe/consensus.py. -/
def normalize_for_matching (s : String) : String :=
  ⟨normalizeCL s.data⟩

/-- Model of `len(text.split())`, the word count used by the consensus checker. -/
def wordCount (s : String) : Nat :=
  (splitWs s.data).length

/-- Model of `FILLER_WORDS` from src/mergescribe/consensus.py. -/
def FILLER_WORDS : List String :=
  ["um", "uh", "uhm", "umm", "hmm", "hm", "er", "ah", "like",
   "you know", "i mean", "sort of", "kind of"]

/-- Does `pat` occur at the head of `l`? (Helper for Python's `in` on strings.) -/
def leadMatch : List Char → List Char → Bool
  | [], _ => true
  | _ :: _, [] => false
  | a :: as_, b :: bs => a == b && leadMatch as_ bs

/-- Python's substring test `pat in l` for strings. -/
def hasRun (pat : List Char) : List Char → Bool
  | [] => pat.isEmpty
  | c :: rest => leadMatch pat (c :: rest) || hasRun pat rest

/-- Model of `_contains_filler` from src/mergescribe/consensus.py: any single word of
`text.lower().split()` is a filler, or a multi-word filler occurs as a
substring of `text.lower()`. -/
def contains_filler (text : String) : Bool :=
  let lower := text.data.map asciiLower
  let words := splitWs lower
  words.any (fun w => FILLER_WORDS.any (fun f => f.data == w)) ||
    FILLER_WORDS.any (fun f => f.data.contains ' ' && hasRun f.data lower)

/-- Model of `TranscriptionResult` from src/mergescribe/types.py (confidence is an
external float; it plays no role in any claim and is omitted). -/
structure TranscriptionResult where
  text : String
  provider : String
  mic : String
  latency_ms : Int
deriving DecidableEq, Repr

/-- The fields of `ConfigSnapshot` (src/mergescribe/types.py) that the
consensus checker, router and correction client consult. -/
structure ConfigSnapshot where
  consensus_threshold : Nat
  consensus_max_words : Nat
  openrouter_api_key : String
  groq_api_key : String
  gemini_api_key : String
  custom_instructions : String := ""
  system_prompt : String := ""
  editing_prompt : String := ""
deriving DecidableEq, Repr

/-- Model of `collections.Counter` over a list: each distinct key in first-occurrence
order, paired with its multiplicity. -/
def tally : List String → List (String × Nat)
  | [] => []
  | x :: rest => (x, 1 + rest.count x) :: (tally rest).filter (fun e => e.1 ≠ x)

/-- Model of `Counter.most_common(1)[0]`: the entry with the greatest count; ties go to
the earliest-inserted key (Python's `nlargest` is stable). -/
def mostCommon1 : List (String × Nat) → Option (String × Nat)
  | [] => none
  | e :: rest => some (rest.foldl (fun best x => if x.2 > best.2 then x else best) e)

/-- Lines 69–72 of src/mergescribe/consensus.py: pair every result with its
normalization and drop the pairs whose normalization is empty. -/
def normalizedPairs (results : List TranscriptionResult) :
    List (TranscriptionResult × String) :=
  (results.map fun r => (r, normalize_for_matching r.text)).filter fun p => p.2 ≠ ""

/-- Model of `check_consensus` from src/mergescribe/consensus.py. -/
def check_consensus (results : List TranscriptionResult) (config : ConfigSnapshot) :
    Option String :=
  if results.isEmpty then none
  else if (normalizedPairs results).isEmpty then none
  else
    match mostCommon1 (tally ((normalizedPairs results).map (·.2))) with
    | none => none
    | some (winner_norm, count) =>
      if config.consensus_threshold ≤ count then
        if (splitWs winner_norm.data).length ≤ config.consensus_max_words then
          if contains_filler winner_norm then none
          else
            match (normalizedPairs results).find? (fun p => p.2 == winner_norm) with
            | some (r, _) => some r.text
            | none => none
        else none
      else none

example : normalize_for_matching "Hello,  world." = "hello world" := by decide
example : normalize_for_matching "a_b" = "a_b" := by decide
example : contains_filler "you know what" = true := by decide
example : contains_filler "hello world" = false := by decide
example :
    check_consensus
      [⟨"Hello, world.", "pa", "d1", 100⟩, ⟨"hello world", "pb", "d1", 120⟩]
      ⟨2, 10, "", "", "", "", "", ""⟩ = some "Hello, world." := by decide
example :
    check_consensus
      [⟨"Hello, world.", "pa", "d1", 100⟩, ⟨"bye", "pb", "d1", 120⟩]
      ⟨2, 10, "", "", "", "", "", ""⟩ = none := by decide

theorem tally_count {l : List String} {k : String} {c : Nat}
    (h : (k, c) ∈ tally l) : c = l.count k ∧ k ∈ l := by
  induction l with
  | nil => simp [tally] at h
  | cons x rest ih =>
    simp only [tally, List.mem_cons, List.mem_filter] at h
    rcases h with h | ⟨h, hne⟩
    · obtain ⟨hk, hc⟩ := Prod.mk.injEq .. ▸ h
      subst hk
      constructor
      · rw [hc, List.count_cons_self]
        omega
      · exact List.mem_cons_self _ _
    · have hne' : k ≠ x := by
        simpa using hne
      obtain ⟨hc, hmem⟩ := ih h
      constructor
      · rw [hc, List.count_cons_of_ne hne']
      · exact List.mem_cons_of_mem _ hmem

theorem foldl_pick_mem {α : Type} (f : α × Nat → α × Nat → α × Nat)
    (hf : ∀ a b, f a b = a ∨ f a b = b) :
    ∀ (rest : List (α × Nat)) (e : α × Nat), rest.foldl f e ∈ e :: rest := by
  intro rest
  induction rest with
  | nil => intro e; simp
  | cons x xs ih =>
    intro e
    rw [List.foldl_cons]
    have := ih (f e x)
    rcases List.mem_cons.mp this with h1 | h1
    · rcases hf e x with h | h
      · exact List.mem_cons.mpr (Or.inl (h1.trans h))
      · exact List.mem_cons.mpr (Or.inr (List.mem_cons.mpr (Or.inl (h1.trans h))))
    · exact List.mem_cons.mpr (Or.inr (List.mem_cons.mpr (Or.inr h1)))

theorem mostCommon1_mem {t : List (String × Nat)} {e : String × Nat}
    (h : mostCommon1 t = some e) : e ∈ t := by
  match t with
  | [] => simp [mostCommon1] at h
  | x :: rest =>
    simp only [mostCommon1, Option.some.injEq] at h
    have := foldl_pick_mem (fun best y => if y.2 > best.2 then y else best)
      (fun a b => by by_cases hc : b.2 > a.2 <;> simp [hc]) rest x
    rw [h] at this
    exact this

theorem count_norm_filter (results : List TranscriptionResult) (w : String)
    (hw : w ≠ "") :
    ((normalizedPairs results).map (·.2)).count w =
      results.countP (fun r => normalize_for_matching r.text == w) := by
  unfold normalizedPairs
  induction results with
  | nil => rfl
  | cons r rest ih =>
    by_cases hnorm : normalize_for_matching r.text = ""
    · rw [List.map_cons, List.filter_cons_of_neg (by simp [hnorm]), ih, List.countP_cons]
      have hbw : (normalize_for_matching r.text == w) = false := by
        simp [hnorm, Ne.symm hw]
      simp [hbw]
    · rw [List.map_cons, List.filter_cons_of_pos (by simp [hnorm]), List.map_cons,
        List.count_cons, ih, List.countP_cons]

theorem find?_filter_of_imp {α : Type} (l : List α) (p q : α → Bool)
    (himp : ∀ x, p x = true → q x = true) :
    (l.filter q).find? p = l.find? p := by
  induction l with
  | nil => rfl
  | cons x xs ih =>
    by_cases hq : q x = true
    · rw [List.filter_cons_of_pos hq]
      by_cases hp : p x = true
      · rw [List.find?_cons_of_pos _ hp, List.find?_cons_of_pos _ hp]
      · rw [List.find?_cons_of_neg _ (by simpa using hp),
          List.find?_cons_of_neg _ (by simpa using hp), ih]
    · have hp : p x = false := by
        by_contra hc
        exact hq (himp x (by simpa using hc))
      rw [List.filter_cons_of_neg (by simpa using hq),
        List.find?_cons_of_neg _ (by simp [hp]), ih]

theorem find?_map_eq {α β : Type} (f : α → β) (p : β → Bool) (l : List α) :
    (l.map f).find? p = (l.find? (fun x => p (f x))).map f := by
  induction l with
  | nil => rfl
  | cons x xs ih =>
    by_cases hp : p (f x) = true
    · rw [List.map_cons, List.find?_cons_of_pos _ hp,
        @List.find?_cons_of_pos _ (fun y => p (f y)) x xs hp, Option.map_some']
    · rw [List.map_cons, List.find?_cons_of_neg _ (by simpa using hp),
        @List.find?_cons_of_neg _ (fun y => p (f y)) x xs (by simpa using hp), ih]

theorem normalizedPairs_snd {results : List TranscriptionResult}
    {p : TranscriptionResult × String} (h : p ∈ normalizedPairs results) :
    p.2 = normalize_for_matching p.1.text ∧ p.2 ≠ "" := by
  unfold normalizedPairs at h
  have h2 := List.of_mem_filter h
  have h1 := List.mem_of_mem_filter h
  rcases List.mem_map.mp h1 with ⟨r, _, rfl⟩
  exact ⟨rfl, by simpa using h2⟩

theorem normalizedPairs_snd_mem {results : List TranscriptionResult} {w : String}
    (h : w ∈ (normalizedPairs results).map (·.2)) : w ≠ "" := by
  rcases List.mem_map.mp h with ⟨p, hp, rfl⟩
  exact (normalizedPairs_snd hp).2

/-- C1: If `check_consensus` returns a text `t`, then at least
`consensus_threshold` of the results normalize to `normalize_for_matching t`,
that normalization has at most `consensus_max_words` words and contains no
filler token, and `t` is the original (punctuated) text of the first result
in the list whose normalization equals the winning normalization. -/
theorem check_consensus_sound (results : List TranscriptionResult)
    (config : ConfigSnapshot) (t : String)
    (h : check_consensus results config = some t) :
    config.consensus_threshold ≤
        results.countP (fun r => normalize_for_matching r.text == normalize_for_matching t) ∧
      wordCount (normalize_for_matching t) ≤ config.consensus_max_words ∧
      contains_filler (normalize_for_matching t) = false ∧
      ∃ r, results.find?
          (fun x => normalize_for_matching x.text == normalize_for_matching t) = some r ∧
        t = r.text := by
  unfold check_consensus at h
  split at h
  · simp at h
  split at h
  · simp at h
  split at h
  · simp at h
  next winner_norm count heq =>
    split at h
    case isFalse => simp at h
    next hthr =>
      split at h
      case isFalse => simp at h
      next hwc =>
        split at h
        case isTrue => simp at h
        next hfill =>
          split at h
          case h_2 => simp at h
          next r nr heqf =>
            injection h with ht
            subst ht
            -- the found pair comes from `results` and carries its normalization
            have hpred := List.find?_some heqf
            have hmem := List.mem_of_find?_eq_some heqf
            have hsnd := normalizedPairs_snd hmem
            have hnr : nr = winner_norm := by simpa using hpred
            have hwinner : winner_norm = normalize_for_matching r.text := by
              rw [← hnr]; exact hsnd.1
            -- the winning count is the number of matching results
            have hmemw : (winner_norm, count) ∈ tally ((normalizedPairs results).map (·.2)) :=
              mostCommon1_mem heq
            obtain ⟨hcount, hwmem⟩ := tally_count hmemw
            have hwne : winner_norm ≠ "" := normalizedPairs_snd_mem hwmem
            have hcp := count_norm_filter results winner_norm hwne
            refine ⟨?_, ?_, ?_, ?_⟩
            · rw [← hwinner, ← hcp, ← hcount]
              exact hthr
            · rw [← hwinner]
              exact hwc
            · rw [← hwinner]
              simpa using hfill
            · refine ⟨r, ?_, rfl⟩
              rw [← hwinner]
              have himp : ∀ x : TranscriptionResult × String,
                  (x.2 == winner_norm) = true → decide (x.2 ≠ "") = true := by
                intro x hx
                simp only [beq_iff_eq] at hx
                simpa [hx] using hwne
              have h1 : (normalizedPairs results).find? (fun p => p.2 == winner_norm) =
                  ((results.map fun r => (r, normalize_for_matching r.text)).find?
                    (fun p => p.2 == winner_norm)) := by
                unfold normalizedPairs
                exact find?_filter_of_imp _ _ _ himp
              have h2 := find?_map_eq (fun r : TranscriptionResult =>
                (r, normalize_for_matching r.text)) (fun p => p.2 == winner_norm) results
              rw [h1, h2] at heqf
              rcases hfind : results.find?
                  (fun x => (x, normalize_for_matching x.text).2 == winner_norm) with _ | r'
              · rw [hfind] at heqf
                simp at heqf
              · rw [hfind] at heqf
                simp only [Option.map_some', Option.some.injEq, Prod.mk.injEq] at heqf
                have : r' = r := heqf.1
                subst this
                simpa using hfind

/-- Concrete results used to witness C1 (scenario S1 of the specification). -/
def w1results : List TranscriptionResult :=
  [⟨"Hello, world.", "pa", "d1", 100⟩, ⟨"hello world", "pb", "d1", 120⟩,
   ⟨"Hello world", "pa", "d2", 90⟩]

/-- Concrete configuration used to witness C1. -/
def w1config : ConfigSnapshot :=
  ⟨2, 10, "", "", "", "", "", ""⟩

/-- Witness for C1: the soundness theorem applied at a concrete consensus. -/
theorem check_consensus_sound_witness :
    w1config.consensus_threshold ≤
        w1results.countP
          (fun r => normalize_for_matching r.text ==
            normalize_for_matching "Hello, world.") ∧
      wordCount (normalize_for_matching "Hello, world.") ≤ w1config.consensus_max_words ∧
      contains_filler (normalize_for_matching "Hello, world.") = false ∧
      ∃ r, w1results.find?
          (fun x => normalize_for_matching x.text ==
            normalize_for_matching "Hello, world.") = some r ∧
        "Hello, world." = r.text :=
  check_consensus_sound w1results w1config "Hello, world." (by decide)

/-- The character class the claim C6 describes: alphanumeric or whitespace
(underscore is notably absent). -/
def specKeepChar (c : Char) : Bool :=
  c.isAlphanum || isSpaceChar c

/-- Trailing-whitespace trim. -/
def trimRight (l : List Char) : List Char :=
  (l.reverse.dropWhile isSpaceChar).reverse

/-- Trim whitespace from both ends. -/
def trimWs (l : List Char) : List Char :=
  (trimRight l).dropWhile isSpaceChar

/-- Collapse every run of consecutive whitespace to a single space. -/
def collapseWs : List Char → List Char
  | [] => []
  | c :: rest =>
    if isSpaceChar c then
      match rest with
      | [] => [' ']
      | c2 :: _ => if isSpaceChar c2 then collapseWs rest else ' ' :: collapseWs rest
    else c :: collapseWs rest

/-- Normalization exactly as claim C6 words it: lowercase, remove every
character that is neither alphanumeric nor whitespace, collapse consecutive
whitespace to one space, trim. -/
def normalizeSpecClaim (s : String) : String :=
  ⟨trimWs (collapseWs ((s.data.map asciiLower).filter specKeepChar))⟩

/-- Claim C6 amended: same wording, but the removed characters are those that
are neither word characters (alphanumeric or underscore) nor whitespace,
matching Python's regex class `\w`. -/
def normalizeSpecAmended (s : String) : String :=
  ⟨trimWs (collapseWs ((s.data.map asciiLower).filter keepChar))⟩

/-- C6 counterexample: On `"a_b"` the code keeps the underscore (Python's
`\w` matches it) while the claim's normalization deletes it. -/
theorem normalize_underscore_counterexample :
    normalize_for_matching "a_b" = "a_b" ∧ normalizeSpecClaim "a_b" = "ab" ∧
      normalize_for_matching "a_b" ≠ normalizeSpecClaim "a_b" := by
  refine ⟨by decide, by decide, by decide⟩

theorem keepChar_asciiLower (c : Char) : keepChar (asciiLower c) = keepChar c := by
  simp [keepChar, isWordChar_asciiLower, isSpaceChar_asciiLower]

theorem joinSp_cons (w : List Char) (ws : List (List Char)) :
    joinSp (w :: ws) = w ++ (if ws.isEmpty then [] else ' ' :: joinSp ws) := by
  cases ws <;> simp [joinSp]

theorem splitWs_nil : splitWs [] = [] := rfl

theorem splitWs_single (c : Char) :
    splitWs [c] = if isSpaceChar c then [] else [[c]] := rfl

theorem splitWs_cons2 (c c2 : Char) (r2 : List Char) :
    splitWs (c :: c2 :: r2) =
      if isSpaceChar c then splitWs (c2 :: r2)
      else if isSpaceChar c2 then [c] :: splitWs (c2 :: r2)
      else
        match splitWs (c2 :: r2) with
        | [] => [[c]]
        | w :: ws => (c :: w) :: ws := rfl

theorem collapseWs_nil : collapseWs [] = [] := rfl

theorem collapseWs_single (c : Char) :
    collapseWs [c] = if isSpaceChar c then [' '] else [c] := rfl

theorem collapseWs_cons2 (c c2 : Char) (r2 : List Char) :
    collapseWs (c :: c2 :: r2) =
      if isSpaceChar c then
        (if isSpaceChar c2 then collapseWs (c2 :: r2) else ' ' :: collapseWs (c2 :: r2))
      else c :: collapseWs (c2 :: r2) := rfl

theorem trimRight_cons (c : Char) (x : List Char) :
    trimRight (c :: x) =
      if trimRight x = [] then (if isSpaceChar c then [] else [c])
      else c :: trimRight x := by
  unfold trimRight
  rw [List.reverse_cons, List.dropWhile_append]
  by_cases h : (x.reverse.dropWhile isSpaceChar).isEmpty = true
  · have hx : x.reverse.dropWhile isSpaceChar = [] := by simpa using h
    rw [if_pos h, hx]
    by_cases hc : isSpaceChar c <;> simp [List.dropWhile_cons, hc]
  · have hx : x.reverse.dropWhile isSpaceChar ≠ [] := by simpa using h
    rw [if_neg h, if_neg (by simpa using hx), List.reverse_append]
    simp

/-- Is the first character whitespace? -/
def headSp : List Char → Bool
  | [] => false
  | c :: _ => isSpaceChar c

theorem splitWs_ne_nil {c : Char} (rest : List Char) (hc : isSpaceChar c = false) :
    splitWs (c :: rest) ≠ [] := by
  cases rest with
  | nil =>
    rw [splitWs_single, if_neg (by simp [hc])]
    simp
  | cons c2 r2 =>
    rw [splitWs_cons2, if_neg (by simp [hc])]
    by_cases h2 : isSpaceChar c2 = true
    · rw [if_pos h2]
      simp
    · rw [if_neg h2]
      rcases splitWs (c2 :: r2) with _ | ⟨w, ws⟩ <;> simp

theorem splitWs_head_nonspace :
    ∀ (l : List Char) (w : List Char) (ws : List (List Char)),
      splitWs l = w :: ws → ∃ c cs, w = c :: cs ∧ isSpaceChar c = false := by
  intro l
  induction l with
  | nil => intro w ws h; simp [splitWs_nil] at h
  | cons c rest ih =>
    intro w ws h
    by_cases hc : isSpaceChar c = true
    · cases rest with
      | nil =>
        rw [splitWs_single, if_pos hc] at h
        simp at h
      | cons c2 r2 =>
        rw [splitWs_cons2, if_pos hc] at h
        exact ih w ws h
    · have hc' : isSpaceChar c = false := by simpa using hc
      cases rest with
      | nil =>
        rw [splitWs_single, if_neg hc] at h
        simp only [List.cons.injEq] at h
        exact ⟨c, [], h.1.symm, hc'⟩
      | cons c2 r2 =>
        rw [splitWs_cons2, if_neg hc] at h
        by_cases h2 : isSpaceChar c2 = true
        · rw [if_pos h2] at h
          simp only [List.cons.injEq] at h
          exact ⟨c, [], h.1.symm, hc'⟩
        · rw [if_neg h2] at h
          rcases hsw : splitWs (c2 :: r2) with _ | ⟨w', ws'⟩ <;> rw [hsw] at h <;>
            simp only [List.cons.injEq] at h
          · exact ⟨c, [], h.1.symm, hc'⟩
          · exact ⟨c, w', h.1.symm, hc'⟩

theorem trimRight_collapse (l : List Char) :
    trimRight (collapseWs l) =
      if splitWs l = [] then []
      else if headSp l then ' ' :: joinSp (splitWs l) else joinSp (splitWs l) := by
  induction l with
  | nil => simp [collapseWs_nil, splitWs_nil, trimRight]
  | cons c rest ih =>
    cases rest with
    | nil =>
      by_cases hc : isSpaceChar c = true
      · have h1 : collapseWs [c] = [' '] := by rw [collapseWs_single, if_pos hc]
        have h2 : splitWs [c] = [] := by rw [splitWs_single, if_pos hc]
        rw [h1, h2, if_pos rfl]
        decide
      · have hc' : isSpaceChar c = false := by simpa using hc
        have h1 : collapseWs [c] = [c] := by rw [collapseWs_single, if_neg hc]
        have h2 : splitWs [c] = [[c]] := by rw [splitWs_single, if_neg hc]
        rw [h1, h2]
        simp [headSp, hc', joinSp, trimRight, List.dropWhile, hc]
    | cons c2 r2 =>
      by_cases hc : isSpaceChar c = true
      · by_cases h2 : isSpaceChar c2 = true
        · have h1 : collapseWs (c :: c2 :: r2) = collapseWs (c2 :: r2) := by
            rw [collapseWs_cons2, if_pos hc, if_pos h2]
          have h3 : splitWs (c :: c2 :: r2) = splitWs (c2 :: r2) := by
            rw [splitWs_cons2, if_pos hc]
          rw [h1, h3, ih]
          simp [headSp, hc, h2]
        · have h2' : isSpaceChar c2 = false := by simpa using h2
          have h1 : collapseWs (c :: c2 :: r2) = ' ' :: collapseWs (c2 :: r2) := by
            rw [collapseWs_cons2, if_pos hc, if_neg h2]
          have h3 : splitWs (c :: c2 :: r2) = splitWs (c2 :: r2) := by
            rw [splitWs_cons2, if_pos hc]
          rw [h1, h3, trimRight_cons, ih]
          cases hsw : splitWs (c2 :: r2) with
          | nil => exact absurd hsw (splitWs_ne_nil r2 h2')
          | cons w ws =>
            obtain ⟨ch, cs, hw, hch⟩ := splitWs_head_nonspace _ _ _ hsw
            have hjoin : joinSp (w :: ws) ≠ [] := by
              rw [joinSp_cons, hw]
              simp
            simp [headSp, hc, h2', hjoin]
      · have hc' : isSpaceChar c = false := by simpa using hc
        have h1 : collapseWs (c :: c2 :: r2) = c :: collapseWs (c2 :: r2) := by
          rw [collapseWs_cons2, if_neg hc]
        rw [h1, trimRight_cons, ih]
        by_cases h2 : isSpaceChar c2 = true
        · have h3 : splitWs (c :: c2 :: r2) = [c] :: splitWs (c2 :: r2) := by
            rw [splitWs_cons2, if_neg hc, if_pos h2]
          rw [h3]
          cases hsw : splitWs (c2 :: r2) with
          | nil => simp [headSp, hc', joinSp]
          | cons w ws =>
            simp [headSp, hc', h2, joinSp_cons, joinSp]
        · have h2' : isSpaceChar c2 = false := by simpa using h2
          cases hsw : splitWs (c2 :: r2) with
          | nil => exact absurd hsw (splitWs_ne_nil r2 h2')
          | cons w ws =>
            have h3 : splitWs (c :: c2 :: r2) = (c :: w) :: ws := by
              rw [splitWs_cons2, if_neg hc, if_neg h2, hsw]
            rw [h3]
            obtain ⟨ch, cs, hw, hch⟩ := splitWs_head_nonspace _ _ _ hsw
            have hjoin : joinSp (w :: ws) ≠ [] := by
              rw [joinSp_cons, hw]
              simp
            simp [headSp, hc', h2', hjoin, joinSp_cons]

theorem joinSp_splitWs (l : List Char) :
    joinSp (splitWs l) = trimWs (collapseWs l) := by
  unfold trimWs
  rw [trimRight_collapse]
  cases hws : splitWs l with
  | nil => simp [joinSp]
  | cons w ws =>
    obtain ⟨ch, cs, hw, hch⟩ := splitWs_head_nonspace _ _ _ hws
    rw [if_neg (List.cons_ne_nil w ws)]
    have hdrop : (joinSp (w :: ws)).dropWhile isSpaceChar = joinSp (w :: ws) := by
      rw [joinSp_cons, hw, List.cons_append, List.dropWhile_cons, hch]
      simp
    by_cases hh : headSp l = true
    · rw [if_pos hh, List.dropWhile_cons, if_pos (by decide), hdrop]
    · rw [if_neg hh, hdrop]

/-- C6 amended: `normalize_for_matching` lowercases, removes every
character that is neither a word character (alphanumeric or underscore) nor
whitespace, collapses consecutive whitespace to a single space, and trims;
this matches the claim except that underscores are kept (Python's `\w`). -/
theorem normalize_for_matching_amended (s : String) :
    normalize_for_matching s = normalizeSpecAmended s := by
  unfold normalize_for_matching normalizeSpecAmended normalizeCL
  have hfilter : (s.data.map asciiLower).filter keepChar =
      (s.data.filter keepChar).map asciiLower := by
    rw [List.filter_map]
    congr 1
    exact List.filter_congr (fun c _ => by simp [Function.comp, keepChar_asciiLower])
  rw [hfilter, joinSp_splitWs]

/-- UTF-16 code units of one character (`_count_utf16_units` applied to a
single code point in src/fast_text_input.py): 2 for a character outside the
Basic Multilingual Plane (a surrogate pair), 1 otherwise. -/
def utf16Units (c : Char) : Nat :=
  if c.toNat ≥ 0x10000 then 2 else 1

/-- Model of `_count_utf16_units` of a whole string. -/
def utf16Len : List Char → Nat
  | [] => 0
  | c :: rest => utf16Units c + utf16Len rest

/-- Model of `MAX_CHUNK` from src/fast_text_input.py. -/
def MAX_CHUNK : Nat := 20

/-- The loop of `_chunk_by_utf16` from src/fast_text_input.py: `chunk` and
`units` are the accumulator variables `chunk` and `chunk_units`. -/
def chunkAux (maxUnits : Nat) : List Char → List Char → Nat → List (List Char)
  | [], chunk, _ => if chunk.isEmpty then [] else [chunk]
  | c :: rest, chunk, units =>
    if units + utf16Units c > maxUnits then
      (if chunk.isEmpty then chunkAux maxUnits rest [c] (utf16Units c)
       else chunk :: chunkAux maxUnits rest [c] (utf16Units c))
    else chunkAux maxUnits rest (chunk ++ [c]) (units + utf16Units c)

/-- Model of `_chunk_by_utf16(text, max_units)` from src/fast_text_input.py. -/
def chunkByUtf16 (text : List Char) (maxUnits : Nat) : List (List Char) :=
  chunkAux maxUnits text [] 0

theorem utf16Units_le_two (c : Char) : utf16Units c ≤ 2 := by
  unfold utf16Units
  split <;> omega

theorem utf16Units_pos (c : Char) : 1 ≤ utf16Units c := by
  unfold utf16Units
  split <;> omega

theorem utf16Len_append (l : List Char) (c : Char) :
    utf16Len (l ++ [c]) = utf16Len l + utf16Units c := by
  induction l with
  | nil => simp [utf16Len]
  | cons x xs ih => simp [utf16Len, ih]; omega

theorem chunkAux_spec (maxUnits : Nat) (hmax : 2 ≤ maxUnits) :
    ∀ (text chunk : List Char) (units : Nat),
      units = utf16Len chunk → utf16Len chunk ≤ maxUnits →
      (chunkAux maxUnits text chunk units).flatten = chunk ++ text ∧
        ∀ ch ∈ chunkAux maxUnits text chunk units, ch ≠ [] ∧ utf16Len ch ≤ maxUnits := by
  intro text
  induction text with
  | nil =>
    intro chunk units hu hb
    by_cases hch : chunk.isEmpty = true
    · have : chunk = [] := by simpa using hch
      simp [chunkAux, hch, this]
    · simp only [chunkAux, hch, Bool.false_eq_true, if_false]
      refine ⟨by simp, ?_⟩
      intro ch hmem
      rcases List.mem_singleton.mp hmem with rfl
      exact ⟨by simpa using hch, hb⟩
  | cons c rest ih =>
    intro chunk units hu hb
    by_cases hover : units + utf16Units c > maxUnits
    · have hinv1 : utf16Units c = utf16Len [c] := by simp [utf16Len]
      have hinv2 : utf16Len [c] ≤ maxUnits := by
        simp only [utf16Len, utf16Len]
        have := utf16Units_le_two c
        omega
      obtain ⟨hjoin, hall⟩ := ih [c] (utf16Units c) hinv1 hinv2
      by_cases hch : chunk.isEmpty = true
      · have hempty : chunk = [] := by simpa using hch
        rw [chunkAux, if_pos hover, if_pos hch]
        refine ⟨by rw [hjoin, hempty]; rfl, hall⟩
      · rw [chunkAux, if_pos hover, if_neg hch]
        refine ⟨?_, ?_⟩
        · rw [List.flatten_cons, hjoin]
          rfl
        · intro ch hmem
          rcases List.mem_cons.mp hmem with rfl | hmem'
          · exact ⟨by simpa using hch, hb⟩
          · exact hall ch hmem'
    · have hinv1 : units + utf16Units c = utf16Len (chunk ++ [c]) := by
        rw [utf16Len_append, ← hu]
      have hinv2 : utf16Len (chunk ++ [c]) ≤ maxUnits := by
        rw [← hinv1]
        omega
      obtain ⟨hjoin, hall⟩ := ih (chunk ++ [c]) (units + utf16Units c) hinv1 hinv2
      rw [chunkAux, if_neg hover]
      refine ⟨?_, hall⟩
      rw [hjoin, List.append_assoc]
      rfl

/-- C7: The UTF-16 chunker yields only non-empty chunks of at most 20
UTF-16 code units, and their concatenation is the input string.  Chunks are
lists of whole code points, so the two code units of a character outside the
Basic Multilingual Plane (a surrogate pair) always land in the same chunk. -/
theorem chunkByUtf16_spec (text : List Char) :
    (chunkByUtf16 text MAX_CHUNK).flatten = text ∧
      ∀ ch ∈ chunkByUtf16 text MAX_CHUNK, ch ≠ [] ∧ utf16Len ch ≤ MAX_CHUNK := by
  have h := chunkAux_spec MAX_CHUNK (by decide) text [] 0 rfl (by decide)
  simpa [chunkByUtf16] using h

/-- Model of `CorrectionProvider` from src/mergescribe/router.py. -/
structure CorrectionProvider where
  name : String
  key_field : String
  latency_ms : Nat
  priority : Nat
  model : String
deriving DecidableEq, Repr

/-- Model of `getattr(config, key_field, "")` for the three credential fields. -/
def getConfigKey (config : ConfigSnapshot) (field : String) : String :=
  if field = "groq_api_key" then config.groq_api_key
  else if field = "gemini_api_key" then config.gemini_api_key
  else if field = "openrouter_api_key" then config.openrouter_api_key
  else ""

/-- Model of `CorrectionProvider.is_available`: the provider's API key is configured. -/
def CorrectionProvider.isAvail (p : CorrectionProvider) (config : ConfigSnapshot) : Bool :=
  getConfigKey config p.key_field ≠ ""

/-- Model names hardcoded in src/mergescribe/router.py. -/
def GROQ_MODEL : String := "openai/gpt-oss-120b"

/-- See `GROQ_MODEL`. -/
def GEMINI_MODEL : String := "gemini-3-flash-preview"

/-- See `GROQ_MODEL`. -/
def OPENROUTER_MODEL : String := "google/gemini-2.5-flash"

/-- Model of `SHORT_INPUT_WORD_THRESHOLD` from src/mergescribe/router.py. -/
def SHORT_INPUT_WORD_THRESHOLD : Nat := 20

/-- Model of `PROVIDERS` from src/mergescribe/router.py. -/
def PROVIDERS : List CorrectionProvider :=
  [⟨"groq", "groq_api_key", 400, 2, GROQ_MODEL⟩,
   ⟨"gemini", "gemini_api_key", 700, 1, GEMINI_MODEL⟩,
   ⟨"openrouter", "openrouter_api_key", 900, 3, OPENROUTER_MODEL⟩]

/-- The module-level `_PROVIDER_FAILURES` / `_PROVIDER_BACKOFF_UNTIL`
defaultdicts of src/mergescribe/router.py.  Timestamps are rationals standing
for `time.time()` seconds. -/
structure RouterState where
  failures : String → Nat
  backoff_until : String → ℚ

/-- Process start: both defaultdicts are empty (default 0). -/
def RouterState.initial : RouterState :=
  ⟨fun _ => 0, fun _ => 0⟩

/-- Model of `CorrectionRouter.get_available_providers`: key configured and not inside
the backoff window (`now < backoff_until` skips the provider). -/
def get_available_providers (config : ConfigSnapshot) (st : RouterState) (now : ℚ) :
    List CorrectionProvider :=
  PROVIDERS.filter fun p => p.isAvail config && !decide (now < st.backoff_until p.name)

/-- Python's `min(iterable, key=...)` starting from a first element: keeps the
earliest element with the smallest key. -/
def pyMin {α : Type} (key : α → Nat) : α → List α → α
  | best, [] => best
  | best, x :: rest => pyMin key (if key x < key best then x else best) rest

/-- Model of `CorrectionRouter.select_provider` from src/mergescribe/router.py. -/
def select_provider (config : ConfigSnapshot) (st : RouterState) (now : ℚ)
    (word_count : Nat) : Option CorrectionProvider :=
  match get_available_providers config st now with
  | [] => none
  | p :: rest =>
    if word_count < SHORT_INPUT_WORD_THRESHOLD then
      some (pyMin (fun q => q.latency_ms) p rest)
    else
      some (pyMin (fun q => q.priority) p rest)

/-- Model of `CorrectionRouter.get_fallback` from src/mergescribe/router.py. -/
def get_fallback (config : ConfigSnapshot) (st : RouterState) (now : ℚ)
    (exclude : String) : Option CorrectionProvider :=
  match (get_available_providers config st now).filter (fun p => p.name ≠ exclude) with
  | [] => none
  | p :: rest => some (pyMin (fun q => q.priority) p rest)

/-- Model of `CorrectionRouter.record_failure`: bump the counter; from the third
consecutive failure on, back off for `min(2^failures, 300)` seconds. -/
def record_failure (st : RouterState) (provider_name : String) (now : ℚ) : RouterState :=
  let f := st.failures provider_name + 1
  { failures := fun n => if n = provider_name then f else st.failures n,
    backoff_until :=
      if 3 ≤ f then
        fun n => if n = provider_name then now + ((min (2 ^ f) 300 : Nat) : ℚ)
                 else st.backoff_until n
      else st.backoff_until }

/-- Model of `CorrectionRouter.record_success`: reset both counters. -/
def record_success (st : RouterState) (provider_name : String) : RouterState :=
  { failures := fun n => if n = provider_name then 0 else st.failures n,
    backoff_until := fun n => if n = provider_name then 0 else st.backoff_until n }

theorem pyMin_spec {α : Type} (key : α → Nat) :
    ∀ (rest : List α) (best : α),
      pyMin key best rest ∈ best :: rest ∧
        key (pyMin key best rest) ≤ key best ∧
        ∀ q ∈ rest, key (pyMin key best rest) ≤ key q := by
  intro rest
  induction rest with
  | nil => intro best; simp [pyMin]
  | cons x xs ih =>
    intro best
    rw [pyMin]
    obtain ⟨hmem, hle, hall⟩ := ih (if key x < key best then x else best)
    by_cases hx : key x < key best
    · rw [if_pos hx] at hmem hle hall ⊢
      refine ⟨?_, ?_, ?_⟩
      · rcases List.mem_cons.mp hmem with h | h
        · exact List.mem_cons.mpr (Or.inr (List.mem_cons.mpr (Or.inl h)))
        · exact List.mem_cons.mpr (Or.inr (List.mem_cons.mpr (Or.inr h)))
      · omega
      · intro q hq
        rcases List.mem_cons.mp hq with rfl | hq'
        · exact hle
        · exact hall q hq'
    · rw [if_neg hx] at hmem hle hall ⊢
      refine ⟨?_, hle, ?_⟩
      · rcases List.mem_cons.mp hmem with h | h
        · exact List.mem_cons.mpr (Or.inl h)
        · exact List.mem_cons.mpr (Or.inr (List.mem_cons.mpr (Or.inr h)))
      · intro q hq
        rcases List.mem_cons.mp hq with rfl | hq'
        · omega
        · exact hall q hq'

/-- C4: `select_provider` returns none exactly when no provider is
available; otherwise, below 20 words it returns an available provider of
minimal nominal latency, and at 20 words or more one of minimal priority. -/
theorem select_provider_spec (config : ConfigSnapshot) (st : RouterState) (now : ℚ)
    (word_count : Nat) :
    (get_available_providers config st now = [] →
      select_provider config st now word_count = none) ∧
    (get_available_providers config st now ≠ [] →
      ∃ p, select_provider config st now word_count = some p ∧
        p ∈ get_available_providers config st now ∧
        (word_count < SHORT_INPUT_WORD_THRESHOLD →
          ∀ q ∈ get_available_providers config st now, p.latency_ms ≤ q.latency_ms) ∧
        (SHORT_INPUT_WORD_THRESHOLD ≤ word_count →
          ∀ q ∈ get_available_providers config st now, p.priority ≤ q.priority)) := by
  constructor
  · intro hempty
    unfold select_provider
    rw [hempty]
  · intro hne
    cases havail : get_available_providers config st now with
    | nil => exact absurd havail hne
    | cons p rest =>
      have hsel : select_provider config st now word_count =
          if word_count < SHORT_INPUT_WORD_THRESHOLD then
            some (pyMin (fun q => q.latency_ms) p rest)
          else some (pyMin (fun q => q.priority) p rest) := by
        unfold select_provider
        rw [havail]
      by_cases hwc : word_count < SHORT_INPUT_WORD_THRESHOLD
      · obtain ⟨hmem, hle, hall⟩ := pyMin_spec (fun q => q.latency_ms) rest p
        refine ⟨pyMin (fun q => q.latency_ms) p rest, by rw [hsel, if_pos hwc], hmem, ?_, ?_⟩
        · intro _ q hq
          rcases List.mem_cons.mp hq with rfl | hq'
          · exact hle
          · exact hall q hq'
        · intro hge
          omega
      · obtain ⟨hmem, hle, hall⟩ := pyMin_spec (fun q => q.priority) rest p
        refine ⟨pyMin (fun q => q.priority) p rest, by rw [hsel, if_neg hwc], hmem, ?_, ?_⟩
        · intro hlt
          omega
        · intro _ q hq
          rcases List.mem_cons.mp hq with rfl | hq'
          · exact hle
          · exact hall q hq'

/-- Concrete configuration for router witnesses: only the Groq key is set. -/
def wcfgGroq : ConfigSnapshot :=
  ⟨2, 10, "", "groqkey", "", "", "", ""⟩

/-- Witness for C4: with one configured provider and a short input, the
spec theorem yields the concrete selection facts. -/
theorem select_provider_spec_witness :
    ∃ p, select_provider wcfgGroq RouterState.initial 0 5 = some p ∧
      p ∈ get_available_providers wcfgGroq RouterState.initial 0 ∧
      (5 < SHORT_INPUT_WORD_THRESHOLD →
        ∀ q ∈ get_available_providers wcfgGroq RouterState.initial 0,
          p.latency_ms ≤ q.latency_ms) ∧
      (SHORT_INPUT_WORD_THRESHOLD ≤ 5 →
        ∀ q ∈ get_available_providers wcfgGroq RouterState.initial 0,
          p.priority ≤ q.priority) :=
  (select_provider_spec wcfgGroq RouterState.initial 0 5).2 (by decide)

theorem mem_available_not_backoff {config : ConfigSnapshot} {st : RouterState}
    {now : ℚ} {q : CorrectionProvider}
    (h : q ∈ get_available_providers config st now) :
    ¬ now < st.backoff_until q.name := by
  unfold get_available_providers at h
  have hq := List.of_mem_filter h
  simp only [Bool.and_eq_true, Bool.not_eq_true', decide_eq_false_iff_not] at hq
  exact hq.2

theorem select_provider_mem {config : ConfigSnapshot} {st : RouterState} {now : ℚ}
    {word_count : Nat} {q : CorrectionProvider}
    (h : select_provider config st now word_count = some q) :
    q ∈ get_available_providers config st now := by
  cases havail : get_available_providers config st now with
  | nil =>
    have hnone : select_provider config st now word_count = none := by
      unfold select_provider
      rw [havail]
    rw [hnone] at h
    exact absurd h (by simp)
  | cons p rest =>
    have hsel : select_provider config st now word_count =
        if word_count < SHORT_INPUT_WORD_THRESHOLD then
          some (pyMin (fun r => r.latency_ms) p rest)
        else some (pyMin (fun r => r.priority) p rest) := by
      unfold select_provider
      rw [havail]
    rw [hsel] at h
    by_cases hwc : word_count < SHORT_INPUT_WORD_THRESHOLD
    · rw [if_pos hwc] at h
      injection h with h
      rw [← h]
      exact (pyMin_spec _ rest p).1
    · rw [if_neg hwc] at h
      injection h with h
      rw [← h]
      exact (pyMin_spec _ rest p).1

theorem get_fallback_mem {config : ConfigSnapshot} {st : RouterState} {now : ℚ}
    {exclude : String} {q : CorrectionProvider}
    (h : get_fallback config st now exclude = some q) :
    q ∈ get_available_providers config st now := by
  cases havail : (get_available_providers config st now).filter
      (fun p => p.name ≠ exclude) with
  | nil =>
    have hnone : get_fallback config st now exclude = none := by
      unfold get_fallback
      rw [havail]
    rw [hnone] at h
    exact absurd h (by simp)
  | cons p rest =>
    have hfb : get_fallback config st now exclude =
        some (pyMin (fun r => r.priority) p rest) := by
      unfold get_fallback
      rw [havail]
    rw [hfb] at h
    injection h with h
    have hmem : q ∈ p :: rest := by
      rw [← h]
      exact (pyMin_spec _ rest p).1
    rw [← havail] at hmem
    exact List.mem_of_mem_filter hmem

/-- C5: Three consecutive `record_failure` calls for a provider with no
intervening `record_success` set its `backoff_until` to `now + 8` seconds
(`min(2^3, 300) = 8`); and while `backoff_until > now`, that provider is
returned neither by `select_provider` nor by `get_fallback`, even when it
minimizes `nominal_latency_ms`. -/
theorem record_failure_backoff_spec (config : ConfigSnapshot) :
    (∀ (st : RouterState) (p : String) (t1 t2 t3 : ℚ),
      st.failures p = 0 →
      (record_failure (record_failure (record_failure st p t1) p t2) p t3).backoff_until p
        = t3 + 8) ∧
    (∀ (st : RouterState) (now : ℚ) (word_count : Nat) (q : CorrectionProvider),
      now < st.backoff_until q.name →
      select_provider config st now word_count ≠ some q ∧
        ∀ exclude, get_fallback config st now exclude ≠ some q) := by
  constructor
  · intro st p t1 t2 t3 hf
    simp only [record_failure, hf]
    norm_num
  · intro st now word_count q hb
    constructor
    · intro hsel
      exact mem_available_not_backoff (select_provider_mem hsel) hb
    · intro exclude hfb
      exact mem_available_not_backoff (get_fallback_mem hfb) hb

/-- The Groq entry of `PROVIDERS`, for witnesses. -/
def groqProvider : CorrectionProvider :=
  ⟨"groq", "groq_api_key", 400, 2, GROQ_MODEL⟩

/-- The router state after three failures of `"groq"` at time 0. -/
def stBackoff : RouterState :=
  record_failure (record_failure (record_failure RouterState.initial "groq" 0) "groq" 0)
    "groq" 0

/-- Witness for C5: backoff is concretely `0 + 8`, and with that state the
fastest provider `"groq"` is skipped. -/
theorem record_failure_backoff_spec_witness :
    (record_failure (record_failure (record_failure RouterState.initial "groq" 0)
        "groq" 0) "groq" 0).backoff_until "groq" = 0 + 8 ∧
      (select_provider wcfgGroq stBackoff 0 5 ≠ some groqProvider ∧
        ∀ exclude, get_fallback wcfgGroq stBackoff 0 exclude ≠ some groqProvider) :=
  ⟨(record_failure_backoff_spec wcfgGroq).1 RouterState.initial "groq" 0 0 0 rfl,
   (record_failure_backoff_spec wcfgGroq).2 stBackoff 0 5 groqProvider (by
    have h8 := (record_failure_backoff_spec wcfgGroq).1 RouterState.initial "groq" 0 0 0 rfl
    show (0 : ℚ) < stBackoff.backoff_until "groq"
    rw [show stBackoff.backoff_until "groq" = 0 + 8 from h8]
    norm_num)⟩

/-- The prompt built by `edit_text_with_llm` in src/mergescribe/correct.py. -/
def editing_prompt_text (voice_command selected_text : String) : String :=
  "TASK: " ++ voice_command ++ "\n\nORIGINAL TEXT:\n" ++ selected_text ++
    "\n\nINSTRUCTIONS: Apply the task to the original text above. " ++
    "Return ONLY the edited text, nothing else. No explanations, no formatting, " ++
    "no extra content."

/-- Model of `DEFAULT_EDITING_PROMPT` from src/mergescribe/correct.py. -/
def DEFAULT_EDITING_PROMPT : String :=
  "You are a text editing assistant. Apply the user's requested change " ++
    "precisely and return only the edited text."

/-- The system prompt `edit_text_with_llm` sends: the configured editing
prompt when non-empty, else the default. -/
def editing_system_prompt (config : ConfigSnapshot) : String :=
  if config.editing_prompt ≠ "" then config.editing_prompt else DEFAULT_EDITING_PROMPT

/-- Model of `edit_text_with_llm` from src/mergescribe/correct.py.  The external
backends are abstracted by the oracle `call`, mapping (provider name, prompt,
system prompt) to the returned text; empty text means failure.  Routing uses
`word_count = 50`. -/
def edit_text_with_llm (selected_text voice_command : String) (config : ConfigSnapshot)
    (st : RouterState) (now : ℚ) (call : String → String → String → String) : String :=
  match select_provider config st now 50 with
  | none => selected_text
  | some provider =>
    let result := call provider.name (editing_prompt_text voice_command selected_text)
      (editing_system_prompt config)
    let result2 :=
      if result = "" then
        match get_fallback config st now provider.name with
        | none => result
        | some fallback =>
          call fallback.name (editing_prompt_text voice_command selected_text)
            (editing_system_prompt config)
      else result
    if result2 = "" then selected_text else result2

/-- C10: `edit_text_with_llm` returns the selection unchanged when no
provider is available or when the selected provider and its fallback both
return empty text, and it never returns an empty string for a non-empty
selection. -/
theorem edit_text_with_llm_spec (selected_text voice_command : String)
    (config : ConfigSnapshot) (st : RouterState) (now : ℚ)
    (call : String → String → String → String)
    (hsel : selected_text ≠ "") :
    (select_provider config st now 50 = none →
      edit_text_with_llm selected_text voice_command config st now call = selected_text) ∧
    (∀ p, select_provider config st now 50 = some p →
      call p.name (editing_prompt_text voice_command selected_text)
          (editing_system_prompt config) = "" →
      (∀ fb, get_fallback config st now p.name = some fb →
        call fb.name (editing_prompt_text voice_command selected_text)
          (editing_system_prompt config) = "") →
      edit_text_with_llm selected_text voice_command config st now call = selected_text) ∧
    edit_text_with_llm selected_text voice_command config st now call ≠ "" := by
  refine ⟨?_, ?_, ?_⟩
  · intro h
    unfold edit_text_with_llm
    rw [h]
  · intro p hp hcall hfb
    cases hgf : get_fallback config st now p.name with
    | none => simp [edit_text_with_llm, hp, hcall, hgf]
    | some fb => simp [edit_text_with_llm, hp, hcall, hgf, hfb fb hgf]
  · unfold edit_text_with_llm
    cases hp : select_provider config st now 50 with
    | none => simpa using hsel
    | some p =>
      simp only []
      split
      · split
        · exact hsel
        · next h => exact h
      · next h => exact h

/-- Configuration with no credentials at all, for witnesses. -/
def wcfgNone : ConfigSnapshot :=
  ⟨2, 10, "", "", "", "", "", ""⟩

/-- Witness for C10 with no provider available and an always-failing oracle. -/
theorem edit_text_with_llm_spec_witness :
    (select_provider wcfgNone RouterState.initial 0 50 = none →
      edit_text_with_llm "hello" "make it bold" wcfgNone RouterState.initial 0
        (fun _ _ _ => "") = "hello") ∧
    (∀ p, select_provider wcfgNone RouterState.initial 0 50 = some p →
      (fun _ _ _ => "") p.name (editing_prompt_text "make it bold" "hello")
          (editing_system_prompt wcfgNone) = "" →
      (∀ fb, get_fallback wcfgNone RouterState.initial 0 p.name = some fb →
        (fun _ _ _ => "") fb.name (editing_prompt_text "make it bold" "hello")
          (editing_system_prompt wcfgNone) = "") →
      edit_text_with_llm "hello" "make it bold" wcfgNone RouterState.initial 0
        (fun _ _ _ => "") = "hello") ∧
    edit_text_with_llm "hello" "make it bold" wcfgNone RouterState.initial 0
      (fun _ _ _ => "") ≠ "" :=
  edit_text_with_llm_spec "hello" "make it bold" wcfgNone RouterState.initial 0
    (fun _ _ _ => "") (by decide)

/-- Model of `ChunkResult` from src/mergescribe/types.py: the per-chunk transcription
results paired with the consensus text, if one was found. -/
abbrev ChunkResult := List TranscriptionResult × Option String

/-- Python truthiness of an `Optional[str]`: `None` and `""` are falsy. -/
def truthyOpt : Option String → Bool
  | none => false
  | some s => s ≠ ""

/-- Python's `max(iterable, key=...)` starting from a first element: keeps the
earliest element with the greatest key (replacement only on strictly greater). -/
def pyMax {α : Type} (key : α → Nat) : α → List α → α
  | best, [] => best
  | best, x :: rest => pyMax key (if key x > key best then x else best) rest

/-- The greatest key value occurring in the list (0 when empty). -/
def maxKeyFold {α : Type} (key : α → Nat) (l : List α) : Nat :=
  l.foldr (fun r acc => Nat.max (key r) acc) 0

theorem le_maxKeyFold {α : Type} (key : α → Nat) :
    ∀ (l : List α) (x), x ∈ l → key x ≤ maxKeyFold key l := by
  intro l
  induction l with
  | nil => simp
  | cons a as ih =>
    intro x hx
    rcases List.mem_cons.mp hx with rfl | hx'
    · show key x ≤ Nat.max (key x) (maxKeyFold key as)
      exact Nat.le_max_left _ _
    · show key x ≤ Nat.max (key a) (maxKeyFold key as)
      exact le_trans (ih x hx') (Nat.le_max_right _ _)

theorem pyMax_eq_find {α : Type} (key : α → Nat) :
    ∀ (rest : List α) (b : α),
      (b :: rest).find? (fun y => key y == maxKeyFold key (b :: rest)) =
        some (pyMax key b rest) := by
  intro rest
  induction rest with
  | nil =>
    intro b
    rw [pyMax]
    have hm : maxKeyFold key [b] = key b := by
      show Nat.max (key b) 0 = key b
      exact Nat.max_zero ..
    rw [hm]
    exact List.find?_cons_of_pos _ (by simp)
  | cons x rest' ih =>
    intro b
    rw [pyMax]
    by_cases h : key x > key b
    · rw [if_pos h]
      have hxM : key x ≤ maxKeyFold key (x :: rest') :=
        le_maxKeyFold key _ x (List.mem_cons_self _ _)
      have hMM : maxKeyFold key (b :: x :: rest') = maxKeyFold key (x :: rest') := by
        show Nat.max (key b) (maxKeyFold key (x :: rest')) = maxKeyFold key (x :: rest')
        exact Nat.max_eq_right (le_trans (le_of_lt h) hxM)
      rw [hMM]
      rw [List.find?_cons_of_neg _
        (by simpa using Nat.ne_of_lt (lt_of_lt_of_le h hxM))]
      exact ih x
    · rw [if_neg h]
      have hxb : key x ≤ key b := Nat.le_of_not_lt h
      have hMM : maxKeyFold key (b :: x :: rest') = maxKeyFold key (b :: rest') := by
        show Nat.max (key b) (Nat.max (key x) (maxKeyFold key rest')) =
          Nat.max (key b) (maxKeyFold key rest')
        simp only [Nat.max_def]
        split_ifs <;> omega
      rw [hMM]
      by_cases hbM : key b = maxKeyFold key (b :: rest')
      · have hpredb : (fun y => key y == maxKeyFold key (b :: rest')) b = true := by
          simpa using hbM
        rw [@List.find?_cons_of_pos _ (fun y => key y == maxKeyFold key (b :: rest'))
          b (x :: rest') hpredb]
        have hib := ih b
        rw [@List.find?_cons_of_pos _ (fun y => key y == maxKeyFold key (b :: rest'))
          b rest' hpredb] at hib
        exact hib
      · have hblt : key b < maxKeyFold key (b :: rest') :=
          lt_of_le_of_ne (le_maxKeyFold key _ b (List.mem_cons_self _ _)) hbM
        have hpredb : ¬ (fun y => key y == maxKeyFold key (b :: rest')) b = true := by
          simpa using Nat.ne_of_lt hblt
        have hpredx : ¬ (fun y => key y == maxKeyFold key (b :: rest')) x = true := by
          simpa using Nat.ne_of_lt (lt_of_le_of_lt hxb hblt)
        rw [@List.find?_cons_of_neg _ (fun y => key y == maxKeyFold key (b :: rest'))
          b (x :: rest') hpredb,
          @List.find?_cons_of_neg _ (fun y => key y == maxKeyFold key (b :: rest'))
          x rest' hpredx]
        have hib := ih b
        rw [@List.find?_cons_of_neg _ (fun y => key y == maxKeyFold key (b :: rest'))
          b rest' hpredb] at hib
        exact hib

/-- Model of `max(results, key=lambda r: len(r.text.split()))` from
`Session._aggregate_results`, or none for an empty list. -/
def best_result : List TranscriptionResult → Option TranscriptionResult
  | [] => none
  | r :: rest => some (pyMax (fun x => wordCount x.text) r rest)

/-- The per-chunk text chosen by the loop body of `Session._aggregate_results`
(src/mergescribe/session.py): the consensus when truthy, else the longest
result when any, else nothing. -/
def chunk_text_py (cr : ChunkResult) : Option String :=
  if truthyOpt cr.2 then cr.2
  else (best_result cr.1).map (fun r => r.text)

/-- Model of `Session._aggregate_results` from src/mergescribe/session.py. -/
def aggregate_results : List ChunkResult → List String × List TranscriptionResult
  | [] => ([], [])
  | cr :: rest =>
    ((match chunk_text_py cr with
      | some t => t :: (aggregate_results rest).1
      | none => (aggregate_results rest).1),
     cr.1 ++ (aggregate_results rest).2)

/-- Model of `" ".join(chunk_texts)` from `Session._finalize_impl`. -/
def raw_combined (chunk_results : List ChunkResult) : String :=
  String.intercalate " " (aggregate_results chunk_results).1

/-- The first result attaining the maximal word count — the claim's
"result with the most words, ties broken by earliest arrival". -/
def spec_best (rs : List TranscriptionResult) : Option TranscriptionResult :=
  rs.find? (fun r => wordCount r.text == maxKeyFold (fun x => wordCount x.text) rs)

/-- Claim C2's per-chunk text: the consensus when non-null, else the text of
the first result with the most words. -/
def spec_chunk_text (cr : ChunkResult) : Option String :=
  match cr.2 with
  | some c => some c
  | none => (spec_best cr.1).map (fun r => r.text)

theorem best_result_eq_spec (rs : List TranscriptionResult) :
    best_result rs = spec_best rs := by
  cases rs with
  | nil => rfl
  | cons r rest =>
    unfold best_result spec_best
    exact (pyMax_eq_find (fun x => wordCount x.text) rest r).symm

/-- C2: For completed chunk outcomes (consensus, when present, is a
non-empty string, as `check_consensus` guarantees), aggregation picks per
chunk the consensus text when present and otherwise the text of the first
result with the most words; `raw_combined` joins these texts with single
spaces in chunk order. -/
theorem aggregate_results_spec (chunk_results : List ChunkResult)
    (h : ∀ cr ∈ chunk_results, ∀ c, cr.2 = some c → c ≠ "") :
    (aggregate_results chunk_results).1 = chunk_results.filterMap spec_chunk_text ∧
      raw_combined chunk_results =
        String.intercalate " " (chunk_results.filterMap spec_chunk_text) := by
  have hmain : (aggregate_results chunk_results).1 =
      chunk_results.filterMap spec_chunk_text := by
    induction chunk_results with
    | nil => rfl
    | cons cr rest ih =>
      have hcr := h cr (List.mem_cons_self _ _)
      have hrest : ∀ cr' ∈ rest, ∀ c, cr'.2 = some c → c ≠ "" :=
        fun cr' hm => h cr' (List.mem_cons_of_mem _ hm)
      have htext : chunk_text_py cr = spec_chunk_text cr := by
        unfold chunk_text_py spec_chunk_text
        cases hc : cr.2 with
        | none => simp [truthyOpt, best_result_eq_spec]
        | some c =>
          have : c ≠ "" := hcr c hc
          simp [truthyOpt, this]
      rw [aggregate_results, List.filterMap_cons, ← htext, ih hrest]
      cases chunk_text_py cr <;> rfl
  exact ⟨hmain, by rw [raw_combined, hmain]⟩

/-- Chunk outcomes used to witness C2: one chunk with consensus, one without
(its longest result wins, earliest on ties). -/
def w2chunks : List ChunkResult :=
  [([⟨"Hello, world.", "pa", "d1", 100⟩], some "Hello, world."),
   ([⟨"one two", "pa", "d1", 90⟩, ⟨"one two three", "pb", "d1", 95⟩,
     ⟨"four five six", "pa", "d2", 99⟩], none)]

/-- Witness for C2 at `w2chunks`. -/
theorem aggregate_results_spec_witness :
    (aggregate_results w2chunks).1 = w2chunks.filterMap spec_chunk_text ∧
      raw_combined w2chunks =
        String.intercalate " " (w2chunks.filterMap spec_chunk_text) :=
  aggregate_results_spec w2chunks (by decide)

/-- An observable output-path action of a session. -/
inductive OutAction where
  | typed (s : String)
  | clipboard (s : String)
  | notified (s : String)
deriving DecidableEq, Repr

/-- Final text stored by the session together with the output actions taken. -/
structure FinalizeResult where
  final_text : String
  actions : List OutAction
deriving DecidableEq, Repr

/-- Model of `Session._output` from src/mergescribe/session.py: empty text is dropped
without recording; when the active bundle changed since session start the
text goes to the clipboard with a notification, otherwise it is typed. -/
def session_output (text : String) (window_changed : Bool) : FinalizeResult :=
  if text = "" then ⟨"", []⟩
  else if window_changed then
    ⟨text, [.clipboard text, .notified "Window changed - copied to clipboard"]⟩
  else ⟨text, [.typed text]⟩

/-- The decision slice of `Session._finalize_impl` (src/mergescribe/session.py)
after all transcription futures have completed: aggregation, the text-editing
branch, the single-chunk-consensus fast path, and the LLM correction branch.
`window_changed_at_stream_check` is the negation of `can_stream`;
`window_changed_at_output` is `_output`'s own re-check; `edit_fn` abstracts
`edit_text_with_llm`; `llm_fragments` are the streamed fragments of
`correct_with_llm`, whose concatenation is its return value. -/
def finalize_impl (selected_text : Option String) (chunk_results : List ChunkResult)
    (window_changed_at_stream_check window_changed_at_output : Bool)
    (edit_fn : String → String → String) (llm_fragments : List String) :
    FinalizeResult :=
  if (aggregate_results chunk_results).1.isEmpty then ⟨"", []⟩
  else if truthyOpt selected_text then
    session_output (edit_fn (selected_text.getD "") (raw_combined chunk_results))
      window_changed_at_output
  else if chunk_results.length = 1 && truthyOpt (chunk_results.head?.bind (·.2)) then
    session_output ((chunk_results.head?.bind (·.2)).getD "") window_changed_at_output
  else if window_changed_at_stream_check = false then
    ⟨String.join llm_fragments, llm_fragments.map .typed⟩
  else
    ⟨String.join llm_fragments,
     (if String.join llm_fragments = "" then []
      else [.clipboard (String.join llm_fragments)]) ++
       [.notified "Window changed - copied to clipboard"]⟩

/-- Two consensus-less chunks, used for the C3 counterexample and witness. -/
def c3chunks : List ChunkResult :=
  [([⟨"hello", "pa", "d1", 100⟩], none), ([⟨"world", "pa", "d1", 100⟩], none)]

/-- C3 counterexample: With no selection, no fast path, and a correction
client that returns empty text, the session's final text is empty and nothing
at all is output — `raw_combined` (here `"hello world"`, non-empty) is *not*
used as a fallback, contradicting the claim. -/
theorem finalize_no_fallback_counterexample :
    finalize_impl none c3chunks false false (fun _ _ => "") [] =
        ⟨"", []⟩ ∧
      raw_combined c3chunks = "hello world" ∧ ("hello world" : String) ≠ "" := by
  refine ⟨by decide, by decide, by decide⟩

/-- C3 amended: With no captured selection and no single-chunk-consensus
fast path, when the correction client returns empty text the session's final
text is empty and nothing is typed or copied; it does not fall back to
`raw_combined`. -/
theorem finalize_empty_correction (chunk_results : List ChunkResult)
    (wstream wout : Bool) (edit_fn : String → String → String)
    (hfast : ¬(chunk_results.length = 1 ∧
      truthyOpt (chunk_results.head?.bind (·.2)) = true)) :
    (finalize_impl none chunk_results wstream wout edit_fn []).final_text = "" ∧
      ∀ s : String,
        OutAction.typed s ∉ (finalize_impl none chunk_results wstream wout edit_fn []).actions ∧
        OutAction.clipboard s ∉
          (finalize_impl none chunk_results wstream wout edit_fn []).actions := by
  have hfast' : (decide (chunk_results.length = 1) &&
      truthyOpt (chunk_results.head?.bind (·.2))) = false := by
    by_cases h1 : chunk_results.length = 1
    · have h2 : truthyOpt (chunk_results.head?.bind (·.2)) = false := by
        by_contra hc
        exact hfast ⟨h1, by simpa using hc⟩
      simp [h2]
    · simp [h1]
  unfold finalize_impl
  by_cases hempty : (aggregate_results chunk_results).1.isEmpty = true
  · rw [if_pos hempty]
    exact ⟨rfl, by simp⟩
  · rw [if_neg hempty]
    rw [show truthyOpt (none : Option String) = false from rfl]
    simp only [Bool.false_eq_true, if_false]
    rw [hfast']
    simp only [Bool.false_eq_true, if_false]
    by_cases hw : wstream = false
    · rw [if_pos hw]
      exact ⟨rfl, by simp⟩
    · rw [if_neg hw]
      refine ⟨rfl, ?_⟩
      intro s
      simp [String.join]

/-- Witness for C3 (amended) at `c3chunks` with the window changed, so the
non-streaming branch is exercised too. -/
theorem finalize_empty_correction_witness :
    (finalize_impl none c3chunks true false (fun _ _ => "") []).final_text = "" ∧
      ∀ s : String,
        OutAction.typed s ∉ (finalize_impl none c3chunks true false (fun _ _ => "") []).actions ∧
        OutAction.clipboard s ∉
          (finalize_impl none c3chunks true false (fun _ _ => "") []).actions :=
  finalize_empty_correction c3chunks true false (fun _ _ => "") (by decide)

/-- The states of `InputController` (src/mergescribe/input.py). -/
inductive InputState where
  | idle
  | recording
  | toggle_recording
deriving DecidableEq, Repr

/-- The mutable fields of `InputController` that the trigger-press handler
reads and writes (the toggle safety timer is a concurrency feature and is not
modelled). -/
structure ControllerState where
  state : InputState
  last_press_time : ℚ
  trigger_key_pressed : Bool
deriving DecidableEq, Repr

/-- Callbacks fired by the controller. -/
inductive InputEvent where
  | start_recording
  | stop_recording
deriving DecidableEq, Repr

/-- Model of `InputController._enter_toggle_mode`: only acts from `idle`. -/
def enter_toggle_mode (st : ControllerState) : ControllerState × List InputEvent :=
  if st.state = .idle then ({ st with state := .toggle_recording }, [.start_recording])
  else (st, [])

/-- Model of `InputController._start_recording`. -/
def ctrl_start_recording (st : ControllerState) : ControllerState × List InputEvent :=
  ({ st with state := .recording }, [.start_recording])

/-- Model of `InputController._stop_recording`. -/
def ctrl_stop_recording (st : ControllerState) : ControllerState × List InputEvent :=
  ({ st with state := .idle }, [.stop_recording])

/-- Model of `InputController.on_key_press` for a trigger-key press at time `now`
(src/mergescribe/input.py): ignore if already held, else check double-tap
first, then the idle and toggle branches, finally update `last_press_time`. -/
def on_trigger_press (double_tap_threshold : ℚ) (st : ControllerState) (now : ℚ) :
    ControllerState × List InputEvent :=
  if st.trigger_key_pressed then (st, [])
  else
    let st1 := { st with trigger_key_pressed := true }
    let r :=
      if now - st1.last_press_time < double_tap_threshold then enter_toggle_mode st1
      else if st1.state = .idle then ctrl_start_recording st1
      else if st1.state = .toggle_recording then ctrl_stop_recording st1
      else (st1, [])
    ({ r.1 with last_press_time := now }, r.2)

/-- C8 counterexample: A trigger press while in `toggle_recording` that
falls inside the double-tap window (gap 1/10 < threshold 3/10) is routed to
`_enter_toggle_mode`, which does nothing outside `idle`: no stop callback
fires and the state stays `toggle_recording`, contradicting "regardless of
the elapsed time since the previous press". -/
theorem toggle_press_quick_counterexample :
    on_trigger_press (3/10) ⟨.toggle_recording, 0, false⟩ (1/10) =
        (⟨.toggle_recording, 1/10, true⟩, []) ∧
      ((1 : ℚ)/10 - 0 < 3/10) := by
  constructor
  · norm_num [on_trigger_press, enter_toggle_mode]
    simp
  · norm_num

/-- C8 amended: A trigger press while in `toggle_recording` with the
trigger not already held fires the stop callback and enters `idle` when the
gap since the previous press is at least `double_tap_threshold`; a press
within the window is ignored (only the press timestamp and key flag change). -/
theorem toggle_press_spec (double_tap_threshold : ℚ) (st : ControllerState) (now : ℚ)
    (hstate : st.state = .toggle_recording)
    (hheld : st.trigger_key_pressed = false) :
    (double_tap_threshold ≤ now - st.last_press_time →
      on_trigger_press double_tap_threshold st now =
        (⟨.idle, now, true⟩, [.stop_recording])) ∧
    (now - st.last_press_time < double_tap_threshold →
      on_trigger_press double_tap_threshold st now =
        (⟨.toggle_recording, now, true⟩, [])) := by
  constructor
  · intro hgap
    have hlt : ¬ now - st.last_press_time < double_tap_threshold := not_lt.mpr hgap
    simp [on_trigger_press, enter_toggle_mode, ctrl_stop_recording, hheld, hstate, hlt]
  · intro hgap
    simp [on_trigger_press, enter_toggle_mode, hheld, hstate, hgap]

/-- Witness for C8 (amended): a slow press (gap 1 ≥ 3/10) stops toggle mode,
a quick press (gap 1/10) is ignored. -/
theorem toggle_press_spec_witness :
    ((3 : ℚ)/10 ≤ 1 - 0 →
      on_trigger_press (3/10) ⟨.toggle_recording, 0, false⟩ 1 =
        (⟨.idle, 1, true⟩, [.stop_recording])) ∧
    ((1 : ℚ) - 0 < 3/10 →
      on_trigger_press (3/10) ⟨.toggle_recording, 0, false⟩ 1 =
        (⟨.toggle_recording, 1, true⟩, [])) :=
  toggle_press_spec (3/10) ⟨.toggle_recording, 0, false⟩ 1 rfl rfl

/-- The system clipboard together with a count of synthesized paste events. -/
structure ClipboardState where
  clipboard : String
  paste_count : Nat
deriving DecidableEq, Repr

/-- Model of `get_clipboard` from src/mergescribe/output.py. -/
def get_clipboard (st : ClipboardState) : String :=
  st.clipboard

/-- Model of `copy_to_clipboard` from src/mergescribe/output.py: empty text is a no-op
(`if not text: return`). -/
def copy_to_clipboard (text : String) (st : ClipboardState) : ClipboardState :=
  if text = "" then st else { st with clipboard := text }

/-- Model of `replace_selection` from src/mergescribe/output.py: save the clipboard,
copy `text`, synthesize Cmd+V, restore the saved contents. -/
def replace_selection (text : String) (st : ClipboardState) : ClipboardState :=
  if text = "" then st
  else
    let old_clipboard := get_clipboard st
    let st1 := copy_to_clipboard text st
    let st2 := { st1 with paste_count := st1.paste_count + 1 }
    copy_to_clipboard old_clipboard st2

/-- C9 counterexample: When the prior clipboard is the empty string, the
guarded `copy_to_clipboard` never restores it: after `replace_selection "x"`
the clipboard holds `"x"`, not the original empty contents. -/
theorem replace_selection_empty_counterexample :
    (replace_selection "x" ⟨"", 0⟩).clipboard = "x" ∧ ("x" : String) ≠ "" := by
  refine ⟨by decide, by decide⟩

/-- C9 amended: For non-empty `text`, `replace_selection` restores the
original clipboard whenever it was non-empty; when the original clipboard was
empty, the clipboard is left holding `text`. -/
theorem replace_selection_restores (text : String) (st : ClipboardState)
    (htext : text ≠ "") :
    (st.clipboard ≠ "" → (replace_selection text st).clipboard = st.clipboard) ∧
      (st.clipboard = "" → (replace_selection text st).clipboard = text) := by
  constructor
  · intro hold
    simp [replace_selection, copy_to_clipboard, get_clipboard, htext, hold]
  · intro hold
    simp [replace_selection, copy_to_clipboard, get_clipboard, htext, hold]

/-- Witness for C9 (amended) at a non-empty prior clipboard. -/
theorem replace_selection_restores_witness :
    ((⟨"old", 0⟩ : ClipboardState).clipboard ≠ "" →
      (replace_selection "x" ⟨"old", 0⟩).clipboard = ("old" : String)) ∧
      ((⟨"old", 0⟩ : ClipboardState).clipboard = "" →
        (replace_selection "x" ⟨"old", 0⟩).clipboard = "x") :=
  replace_selection_restores "x" ⟨"old", 0⟩ (by decide)

end MergeScribe
